import Mathlib

/-!
Verification of the sacred-parser repository (src/sacredParser/core.py and
src/sacredParser/parser.py) against its natural-language specification.

Python values appearing in configuration files and artifacts are shallowly
embedded as the inductive type PyVal: scalars (int, str, bool, None),
insertion-ordered dictionaries with string keys (as association lists), and
lists.  Python dict assignment overwrites an existing key in place (keeping
its position) or appends a fresh key at the end; del removes the key.  These
operations are modelled by dset and ddel below.
-/

/-- Scalar (non-container) Python values. -/
inductive Atom where
  | int : Int → Atom
  | str : String → Atom
  | bool : Bool → Atom
  | none : Atom
deriving DecidableEq, Repr

/-- Python values: scalars, dicts with string keys, and lists. -/
inductive PyVal where
  | atom : Atom → PyVal
  | dict : List (String × PyVal) → PyVal
  | list : List PyVal → PyVal
deriving Repr

/-- An insertion-ordered Python dict with string keys. -/
abbrev PyDict := List (String × PyVal)

/-- Is the key present in the dict (Python membership test on keys). -/
def keyMem [DecidableEq κ] (d : List (κ × α)) (k : κ) : Bool :=
  d.any (fun e => e.1 = k)

/-- Python dict assignment d[k] = v: overwrite in place, or append. -/
def dset [DecidableEq κ] (d : List (κ × α)) (k : κ) (v : α) : List (κ × α) :=
  if keyMem d k then d.map (fun e => if e.1 = k then (k, v) else e)
  else d ++ [(k, v)]

/-- Python del d[k] (modelled as removal; in all reachable states of the
programs below the key is present, so no KeyError is modelled). -/
def ddel [DecidableEq κ] (d : List (κ × α)) (k : κ) : List (κ × α) :=
  d.filter (fun e => e.1 ≠ k)

/-- Python dict lookup d.get(k): first binding of the key. -/
def dget? [DecidableEq κ] (d : List (κ × α)) (k : κ) : Option α :=
  (d.find? (fun e => e.1 = k)).map (fun e => e.2)

/-- The keys of a dict, in order. -/
def keysOf (d : List (κ × α)) : List κ :=
  d.map (fun e => e.1)

/-- Python enumerate(l) starting at index i. -/
def enumFromN (i : Nat) : List α → List (Nat × α)
  | [] => []
  | v :: r => (i, v) :: enumFromN (i + 1) r

/-- The entries inserted when flatten_json expands the value stored at key
k: children of a dict are re-keyed k++sep++childkey, elements of a list are
re-keyed k++sep++index; an atom produces nothing (it is never expanded). -/
def childEntries (sep k : String) : PyVal → PyDict
  | .dict l => l.map (fun e => (k ++ sep ++ e.1, e.2))
  | .list l => (enumFromN 0 l).map (fun e => (k ++ sep ++ toString e.1, e.2))
  | .atom _ => []

/-- One pass of the flatten_json while-loop (core.py lines 10-26): iterate
over the snapshot todo (Python x.items()), threading the mutable dict xout
(Python x_out) and the done flag.  A dict value is deleted and replaced by
its re-keyed children; a list value likewise; both clear the done flag. -/
def procEntries (sep : String) : List (String × PyVal) → PyDict → Bool → PyDict × Bool
  | [], xout, done => (xout, done)
  | (_, .atom _) :: rest, xout, done => procEntries sep rest xout done
  | (k, .dict l) :: rest, xout, _ =>
      procEntries sep rest
        ((childEntries sep k (.dict l)).foldl (fun d e => dset d e.1 e.2) (ddel xout k)) false
  | (k, .list l) :: rest, xout, _ =>
      procEntries sep rest
        ((childEntries sep k (.list l)).foldl (fun d e => dset d e.1 e.2) (ddel xout k)) false

/-- The flatten_json while-loop (core.py lines 9-31), with explicit fuel:
each iteration runs one pass over the snapshot x; if no expansion occurred
the current x_out is returned, otherwise the loop continues with
x = x_out.copy().  Returns none when the fuel runs out (the theorem
flatten_terminates shows that maxDepth + 1 passes always suffice). -/
def runFlatten (sep : String) : Nat → PyDict → PyDict → Option PyDict
  | 0, _, _ => none
  | fuel + 1, x, xout =>
      match procEntries sep x xout true with
      | (xout1, true) => some xout1
      | (xout1, false) => runFlatten sep fuel xout1 xout1

mutual
/-- Nesting depth of a value: atoms have depth 0, a dict or list has depth
one more than the maximum depth of its children. -/
def vdepth : PyVal → Nat
  | .atom _ => 0
  | .dict l => 1 + vdepthEntries l
  | .list l => 1 + vdepthList l

/-- Maximum nesting depth over the values of a dict. -/
def vdepthEntries : List (String × PyVal) → Nat
  | [] => 0
  | e :: r => max (vdepth e.2) (vdepthEntries r)

/-- Maximum nesting depth over a list of values. -/
def vdepthList : List PyVal → Nat
  | [] => 0
  | v :: r => max (vdepth v) (vdepthList r)
end

/-- flatten_json (core.py lines 6-33): x_out = x.copy(), then repeat passes
until one makes no expansion.  The fuel maxDepth + 1 is always sufficient
(theorem flatten_terminates), so the getD default is never used. -/
def flatten_json (sep : String) (x : PyDict) : PyDict :=
  (runFlatten sep (vdepthEntries x + 1) x x).getD x

/-- A dict is flat when none of its values is a dict or a list. -/
def isFlat (d : PyDict) : Bool :=
  d.all (fun e => match e.2 with | .atom _ => true | _ => false)

mutual
/-- The flattened leaf entries of a value rooted at key k: each path of
nested dict keys / list indices below k, joined with sep, paired with the
scalar at the end of the path. -/
def flatKeys (sep : String) : String → PyVal → PyDict
  | k, .atom a => [(k, .atom a)]
  | k, .dict l => flatEntries sep k l
  | k, .list l => flatList sep k 0 l

/-- Flattened leaf entries of the children of a dict rooted at key k. -/
def flatEntries (sep : String) : String → List (String × PyVal) → PyDict
  | _, [] => []
  | k, e :: r => flatKeys sep (k ++ sep ++ e.1) e.2 ++ flatEntries sep k r

/-- Flattened leaf entries of the elements of a list rooted at key k,
numbering from index i. -/
def flatList (sep : String) : String → Nat → List PyVal → PyDict
  | _, _, [] => []
  | k, i, v :: r => flatKeys sep (k ++ sep ++ toString i) v ++ flatList sep k (i + 1) r
end

/-- All flattened leaf entries of a dict: for each original path k1...kn
ending in a scalar, the pair (k1++sep++...++sep++kn, scalar). -/
def leafD (sep : String) : PyDict → PyDict
  | [] => []
  | e :: r => flatKeys sep e.1 e.2 ++ leafD sep r

mutual
/-- All joined keys generated from the value at key k during flattening:
k itself together with the joined keys of every descendant path. -/
def nodeKeys (sep : String) : String → PyVal → List String
  | k, .atom _ => [k]
  | k, .dict l => k :: nkEntries sep k l
  | k, .list l => k :: nkList sep k 0 l

/-- Joined keys of all descendants of a dict rooted at key k. -/
def nkEntries (sep : String) : String → List (String × PyVal) → List String
  | _, [] => []
  | k, e :: r => nodeKeys sep (k ++ sep ++ e.1) e.2 ++ nkEntries sep k r

/-- Joined keys of all descendants of a list rooted at key k, numbering
from index i. -/
def nkList (sep : String) : String → Nat → List PyVal → List String
  | _, _, [] => []
  | k, i, v :: r => nodeKeys sep (k ++ sep ++ toString i) v ++ nkList sep k (i + 1) r
end

/-- Every key that flattening a dict can ever generate: the keys of the
dict together with every joined descendant-path key. -/
def allNodeKeysD (sep : String) : PyDict → List String
  | [] => []
  | e :: r => nodeKeys sep e.1 e.2 ++ allNodeKeysD sep r

mutual
/-- Structural equality of Python values (Python ==): used to model the
elementwise comparison performed by the pandas expression cfg_df[k] == v. -/
def pvBeq : PyVal → PyVal → Bool
  | .atom a, .atom b => a = b
  | .dict l, .dict m => pdBeq l m
  | .list l, .list m => plBeq l m
  | _, _ => false

/-- Structural equality of Python dicts entrywise. -/
def pdBeq : List (String × PyVal) → List (String × PyVal) → Bool
  | [], [] => true
  | e :: r, f :: s => e.1 = f.1 && pvBeq e.2 f.2 && pdBeq r s
  | _, _ => false

/-- Structural equality of Python lists elementwise. -/
def plBeq : List PyVal → List PyVal → Bool
  | [], [] => true
  | v :: r, w :: s => pvBeq v w && plBeq r s
  | _, _ => false
end

/-- Python int(s) on a digit run with optional single underscores between
digits, accumulating the decimal value. -/
def digitsCore : Nat → List Char → Option Nat
  | acc, [] => some acc
  | acc, c :: r =>
    if c.isDigit then digitsCore (acc * 10 + (c.toNat - 48)) r
    else if c = '_' then
      match r with
      | c2 :: r2 => if c2.isDigit then digitsCore (acc * 10 + (c2.toNat - 48)) r2 else none
      | [] => none
    else none

/-- Parse a nonempty decimal digit run (underscores allowed between digits,
as in Python 3 integer literals). -/
def digitsParse : List Char → Option Nat
  | [] => none
  | c :: r => if c.isDigit then digitsCore (c.toNat - 48) r else none

/-- Python int(str): strip surrounding whitespace, optional sign, then a
decimal digit run (ASCII digits; exotic Unicode digits are out of scope).
Returns none where Python raises ValueError. -/
def pyIntParse (s : String) : Option Int :=
  match (((s.toList.dropWhile Char.isWhitespace).reverse.dropWhile Char.isWhitespace).reverse) with
  | '+' :: r => (digitsParse r).map Int.ofNat
  | '-' :: r => (digitsParse r).map (fun n => -(Int.ofNat n))
  | r => (digitsParse r).map Int.ofNat

/-- Does the name contain a decimal digit, i.e. re.search("[0-9]+", f) is
not None (parser.py line 23). -/
def hasDigit (s : String) : Bool := s.toList.any Char.isDigit

/-- Errors raised by the embedded parser code, named after the taxonomy of
the specification (the source raises assert/Exception/ValueError). -/
inductive DiscErr where
  | noRunsFound : DiscErr
  | valueError : DiscErr
deriving DecidableEq, Repr

/-- int(f) applied to each name in order; the first failure propagates
(Python raises ValueError while building the list comprehension). -/
def parseAll : List String → Option (List Int)
  | [] => some []
  | f :: r => (pyIntParse f).bind (fun e => (parseAll r).map (fun es => e :: es))

/-- Run-directory discovery (parser.py lines 19-27): keep the subdirectory
names containing a digit, apply int() to each whole name, assert the result
nonempty (AssertionError "No experiment outputs found", the specification's
NoRunsFoundError), and sort ascending.  The argument is the list of
immediate subdirectory names of basedir, in listdir order. -/
def discover (names : List String) : Except DiscErr (List Int) :=
  match parseAll (names.filter hasDigit) with
  | none => .error .valueError
  | some eids =>
      if eids.isEmpty then .error .noRunsFound
      else .ok (eids.insertionSort (· ≤ ·))

/-- Errors raised by add_artifact / add_cfg_col, named after the
specification's taxonomy (the source raises plain Exception). -/
inductive PErr where
  | reservedName : PErr
  | nameCollision : PErr
deriving DecidableEq, Repr

/-- The in-memory state of a FileStorageParser: the discovered run ids, the
config table cfg_df (one entry per column: name and the column's values in
run order, mirroring a DataFrame indexed by eid), and the artifacts dict
(artifact name to a dict from eid to loaded value). -/
structure FileStorageParser where
  eids : List Int
  cfg : List (String × List PyVal)
  artifacts : List (String × List (Int × PyVal))

/-- The column names of the config table (cfg_df.columns). -/
def colNames (p : FileStorageParser) : List String := keysOf p.cfg

/-- The artifact names (keys of the artifacts dict). -/
def artNames (p : FileStorageParser) : List String := keysOf p.artifacts

/-- cfg_df[c][eid]: the value of column c at run eid (a pandas Series is
indexed by the eid labels; with distinct eids this is the positional entry
at the index of eid in the run order). -/
def rowVal (p : FileStorageParser) (c : String) (eid : Int) : Option PyVal :=
  (dget? p.cfg c).bind (fun s => s.get? (p.eids.indexOf eid))

/-- artifacts[a][eid]: the loaded artifact value of run eid. -/
def artVal (p : FileStorageParser) (a : String) (eid : Int) : Option PyVal :=
  (dget? p.artifacts a).bind (fun m => dget? m eid)

/-- _argnames (parser.py lines 66-69): "eid", then the config columns, then
the artifact names. -/
def argnamesOf (p : FileStorageParser) : List String :=
  ["eid"] ++ colNames p ++ artNames p

/-- The value the injection engine resolves for one name (the nested
conditional of parser.py lines 101-107): "eid" maps to the run id, then a
config column wins over an artifact of the same name.  The fallbacks are
unreachable when the name is in _argnames. -/
def kwargsValue (p : FileStorageParser) (arg : String) (eid : Int) : PyVal :=
  if arg = "eid" then .atom (.int eid)
  else if arg ∈ colNames p then (rowVal p arg eid).getD (.atom .none)
  else if arg ∈ artNames p then (artVal p arg eid).getD (.atom .none)
  else .atom .none

/-- _kwargs (parser.py lines 99-110): the dict comprehension over argnames,
keeping only names occurring in _argnames and resolving each. -/
def pyKwargs (p : FileStorageParser) (argnames : List String) (eid : Int) : PyDict :=
  argnames.foldl
    (fun d arg => if arg ∈ argnamesOf p then dset d arg (kwargsValue p arg eid) else d) []

/-- eid_match (parser.py lines 112-117): ix starts as the scalar True and is
conjoined with the boolean Series cfg_df[k] == v for every criterion; the
final cfg_df.index[ix] selects the run ids where the mask holds.  The
scalar True combined with a Series broadcasts to an all-True mask; with no
criteria at all, indexing the eid index by the scalar True yields every
run id (numpy returns them inside a 1 x n array; the container shape is
not modelled).  A criterion naming a missing column raises KeyError,
modelled as none. -/
def eid_match (p : FileStorageParser) (criteria : List (String × PyVal)) : Option (List Int) :=
  match criteria.foldlM
      (fun mask kv =>
        (dget? p.cfg kv.1).map (fun s => mask.zipWith (· && ·) (s.map (fun w => pvBeq w kv.2))))
      (List.replicate p.eids.length true) with
  | none => none
  | some mask => some (((p.eids.zip mask).filter (fun e => e.2)).map (fun e => e.1))

/-- add_artifact (parser.py lines 119-129).  The Bool records whether a
warning was issued: add_artifact never warns.  The function argument stands
for the user callback f, applied to the kwargs dict _kwargs builds from its
declared argument names. -/
def add_artifact (p : FileStorageParser) (name : String) (argnames : List String)
    (f : PyDict → PyVal) : Except PErr (FileStorageParser × Bool) :=
  if name = "eid" then .error .reservedName
  else if name ∈ colNames p then .error .nameCollision
  else
    let m := p.eids.map (fun e => (e, f (pyKwargs p argnames e)))
    .ok ({ p with artifacts := dset p.artifacts name m }, false)

/-- add_cfg_col (parser.py lines 131-142).  The Bool records whether the
overwriting-a-column warning was issued. -/
def add_cfg_col (p : FileStorageParser) (name : String) (argnames : List String)
    (f : PyDict → PyVal) : Except PErr (FileStorageParser × Bool) :=
  if name = "eid" then .error .reservedName
  else if name ∈ artNames p then .error .nameCollision
  else .ok
    ({ p with cfg := dset p.cfg name (p.eids.map (fun e => f (pyKwargs p argnames e))) },
      decide (name ∈ colNames p))

/-- Index of the last '.' in a list of characters, if any. -/
def lastDotIdx : List Char → Option Nat
  | [] => none
  | c :: r =>
    match lastDotIdx r with
    | some i => some (i + 1)
    | none => if c = '.' then some 0 else none

/-- os.path.splitext on a bare filename: split at the last dot unless every
character before it is a dot (so ".bashrc" has no extension). -/
def splitext (s : String) : String × String :=
  match lastDotIdx s.toList with
  | none => (s, "")
  | some i =>
    if (s.toList.take i).all (fun c => c = '.') then (s, "")
    else (String.mk (s.toList.take i), String.mk (s.toList.drop i))

/-- Column-name normalization (parser.py line 49):
str.lower().str.replace("[^a-z0-9]", "_") replaces every character outside
[a-z0-9] of the lowercased name with an underscore (ASCII lowering; exotic
Unicode case mapping is out of scope). -/
def normName (s : String) : String :=
  String.mk ((s.toList.map Char.toLower).map
    (fun c => if ('a' ≤ c ∧ c ≤ 'z') ∨ ('0' ≤ c ∧ c ≤ '9') then c else '_'))

/-- Errors raised during construction, named after the specification's
taxonomy (the source raises AssertionError / NotImplementedError). -/
inductive CErr where
  | reservedName : CErr
  | unsupportedFormat : CErr
deriving DecidableEq, Repr

/-- The modelled contents of one run directory: the decoded config.json
object, and the run's regular files, each paired with the value its
format-specific loader would produce. -/
structure RunFS where
  cfgJson : PyDict
  files : List (String × PyVal)

/-- The filenames never treated as artifacts (parser.py line 59). -/
def reservedFiles : List String := ["config.json", "metrics.json", "run.json", "cout.txt"]

/-- _config_df's per-run loop (parser.py lines 36-46): for each run, when no
processed_dirname was given assert that the raw config has no top-level
"eid" key (before flattening), flatten the config, then set cfg["eid"] to
the run id. -/
def buildCfgRows (processed : Bool) : List (Int × RunFS) → Except CErr (List PyDict)
  | [] => .ok []
  | (e, rfs) :: rest =>
    if processed = false ∧ "eid" ∈ keysOf rfs.cfgJson then .error .reservedName
    else
      (buildCfgRows processed rest).map
        (fun rs => dset (flatten_json "__" rfs.cfgJson) "eid" (.atom (.int e)) :: rs)

/-- Append the keys of ks not yet present, preserving first-appearance
order (how pd.DataFrame builds its column set from a list of dicts). -/
def dedupAppend (acc : List String) (ks : List String) : List String :=
  ks.foldl (fun a k => if k ∈ a then a else a ++ [k]) acc

/-- The ordered union of the keys of all rows. -/
def unionKeys (rows : List PyDict) : List String :=
  rows.foldl (fun a r => dedupAppend a (keysOf r)) []

/-- pd.DataFrame(cfgs).set_index("eid") followed by column normalization
(parser.py lines 48-49): one column per non-"eid" key, named by normName,
holding each run's value for that key (NaN, modelled as None, where a run
lacks the key). -/
def buildCfgDf (rows : List PyDict) : List (String × List PyVal) :=
  ((unionKeys rows).filter (fun c => c ≠ "eid")).map
    (fun c => (normName c, rows.map (fun r => (dget? r c).getD (.atom .none))))

/-- _load_file (parser.py lines 82-97) for run eid, together with the list
of file-open events it performs: a missing file yields None without opening
anything; a recognized extension (.feather/.json/.pickle/.pkl) opens the
file and returns its deserialized content (the loaders themselves are
external collaborators, so the modelled file content is returned as-is);
any other extension raises NotImplementedError before opening. -/
def load_file_tr (eid : Int) (rfs : RunFS) (fname : String) :
    Except CErr PyVal × List (Int × String) :=
  match dget? rfs.files fname with
  | none => (.ok (.atom .none), [])
  | some content =>
    let ext := (splitext fname).2
    if ext = ".feather" ∨ ext = ".json" ∨ ext = ".pickle" ∨ ext = ".pkl" then
      (.ok content, [(eid, fname)])
    else (.error .unsupportedFormat, [])

/-- The inner dict comprehension of _artifacts (parser.py line 62): load
the file named fname for every run, in run order, collecting the trace. -/
def loadAll (fname : String) : List (Int × RunFS) →
    Except CErr (List (Int × PyVal)) × List (Int × String)
  | [] => (.ok [], [])
  | (e, rfs) :: rest =>
    match load_file_tr e rfs fname with
    | (.error err, tr) => (.error err, tr)
    | (.ok v, tr) =>
      match loadAll fname rest with
      | (.error err, tr2) => (.error err, tr ++ tr2)
      | (.ok vs, tr2) => (.ok ((e, v) :: vs), tr ++ tr2)

/-- The artifact filenames (parser.py lines 54-60): every regular file of
every run except the four reserved names.  Python collects them in a set
with unspecified iteration order; the model fixes first-appearance order. -/
def artifactFilenames (runs : List (Int × RunFS)) : List String :=
  runs.foldl
    (fun a r => dedupAppend a ((keysOf r.2.files).filter (fun f => f ∉ reservedFiles))) []

/-- The outer dict comprehension of _artifacts (parser.py lines 61-64):
map each filename's stem to its per-run loads; a later filename with the
same stem overwrites an earlier one. -/
def buildArts (runs : List (Int × RunFS))
    (acc : List (String × List (Int × PyVal))) (trAcc : List (Int × String)) :
    List String → Except CErr (List (String × List (Int × PyVal))) × List (Int × String)
  | [] => (.ok acc, trAcc)
  | fname :: rest =>
    match loadAll fname runs with
    | (.error err, tr) => (.error err, trAcc ++ tr)
    | (.ok m, tr) => buildArts runs (dset acc (splitext fname).1 m) (trAcc ++ tr) rest

/-- __init__ (parser.py lines 16-31) from the point where the run ids and
their directories are known (discovery is modelled by discover): build the
config table, then eagerly build the artifacts dict, returning the parser
state together with the trace of artifact-file loads performed during
construction. -/
def construct (processed : Bool) (runs : List (Int × RunFS)) :
    Except CErr FileStorageParser × List (Int × String) :=
  match buildCfgRows processed runs with
  | .error e => (.error e, [])
  | .ok rows =>
    match buildArts runs [] [] (artifactFilenames runs) with
    | (.error e, tr) => (.error e, tr)
    | (.ok arts, tr) =>
      (.ok { eids := runs.map (fun r => r.1), cfg := buildCfgDf rows, artifacts := arts }, tr)

/-- The artifact-file loads construction must perform: for each artifact
filename, for each run in order, the events _load_file produces. -/
def traceSpec (runs : List (Int × RunFS)) : List (Int × String) :=
  (artifactFilenames runs).foldr
    (fun f t => (runs.foldr (fun r t2 => (load_file_tr r.1 r.2 f).2 ++ t2) []) ++ t) []

/-- Reading self.artifacts[name][eid] after construction: two dict lookups
on the in-memory state; no file is opened, so the trace is empty. -/
def accessArtifact (p : FileStorageParser) (name : String) (eid : Int) :
    Option PyVal × List (Int × String) :=
  ((dget? p.artifacts name).bind (fun m => dget? m eid), [])

/-- The namespace invariant claimed by the specification: config columns
and artifact names are disjoint and neither contains "eid". -/
def nsInvariant (p : FileStorageParser) : Prop :=
  (∀ c ∈ colNames p, c ∉ artNames p) ∧ "eid" ∉ colNames p ∧ "eid" ∉ artNames p

instance (p : FileStorageParser) : Decidable (nsInvariant p) := by
  unfold nsInvariant
  infer_instance

/-- The specification's first flatten example. -/
def exNestedMap : PyDict := [("a", .dict [("b", .atom (.int 1)), ("c", .atom (.int 2))])]

/-- The specification's second flatten example. -/
def exNestedList : PyDict := [("a", .list [.atom (.int 10), .atom (.int 20)])]

/-- A flatten input with a key collision: the path a.b joins to "a__b",
which is also a top-level key. -/
def exCollision : PyDict :=
  [("a", .dict [("b", .dict [("c", .atom (.int 1))])]), ("a__b", .atom (.int 2))]

/-- One run whose directory holds an artifact file foo.json. -/
def runsArt : List (Int × RunFS) :=
  [(1, { cfgJson := [("lr", .atom (.int 3))],
         files := [("config.json", .atom .none), ("foo.json", .atom (.int 7))] })]

/-- One run whose artifact files clash with a config column ("lr") and with
the reserved name ("eid"). -/
def runsClash : List (Int × RunFS) :=
  [(1, { cfgJson := [("lr", .atom (.int 3))],
         files := [("lr.json", .atom (.int 7)), ("eid.json", .atom (.int 8))] })]

/-- A small two-run parser state used by the witnesses. -/
def pEx : FileStorageParser :=
  { eids := [1, 2],
    cfg := [("lr", [.atom (.int 5), .atom (.int 6)])],
    artifacts := [("foo", [(1, .atom (.int 10)), (2, .atom (.int 20))])] }

/-- The per-run values [f(**kwargs) for eid in eids] computed by
add_cfg_col for the new column. -/
def newColumn (p : FileStorageParser) (argnames : List String) (f : PyDict → PyVal) :
    List PyVal :=
  p.eids.map (fun e => f (pyKwargs p argnames e))

/-- The per-run dict {eid: f(**kwargs)} computed by add_artifact for the
new artifact. -/
def newArtifact (p : FileStorageParser) (argnames : List String) (f : PyDict → PyVal) :
    List (Int × PyVal) :=
  p.eids.map (fun e => (e, f (pyKwargs p argnames e)))

/-- cfg_df[c][eid] == v at positional row index i: false when the column
or the row is missing. -/
def cellMatch (p : FileStorageParser) (c : String) (i : Nat) (v : PyVal) : Bool :=
  match dget? p.cfg c with
  | none => false
  | some s =>
    match s.get? i with
    | none => false
    | some w => pvBeq w v

/-- The specification's selection predicate: the run's config-table row
equals the supplied value in every supplied column. -/
def rowMatches (p : FileStorageParser) (criteria : List (String × PyVal)) (e : Int) : Bool :=
  criteria.all (fun kv => cellMatch p kv.1 (p.eids.indexOf e) kv.2)

/-- The same predicate by positional row index. -/
def rowIdxMatch (p : FileStorageParser) (criteria : List (String × PyVal)) (i : Nat) : Bool :=
  criteria.all (fun kv => cellMatch p kv.1 i kv.2)

theorem dget?_cons [DecidableEq κ] (e : κ × α) (d : List (κ × α)) (a : κ) :
    dget? (e :: d) a = if e.1 = a then some e.2 else dget? d a := by
  by_cases h : e.1 = a <;> simp [dget?, List.find?, h]

theorem dget?_append [DecidableEq κ] (d1 d2 : List (κ × α)) (a : κ) :
    dget? (d1 ++ d2) a = ((dget? d1 a).map some).getD (dget? d2 a) := by
  induction d1 with
  | nil => simp [dget?]
  | cons e r ih =>
    by_cases h : e.1 = a <;> simp [dget?_cons, h, ih]

theorem keyMem_true_iff [DecidableEq κ] (d : List (κ × α)) (k : κ) :
    keyMem d k = true ↔ (dget? d k).isSome := by
  induction d with
  | nil => simp [keyMem, dget?]
  | cons e r ih =>
    by_cases h : e.1 = k <;> simp [keyMem, dget?_cons, h] at ih ⊢ <;> simpa [keyMem] using ih

theorem keyMem_mem_iff [DecidableEq κ] (d : List (κ × α)) (k : κ) :
    keyMem d k = true ↔ k ∈ keysOf d := by
  simp only [keyMem, keysOf, List.any_eq_true, List.mem_map, decide_eq_true_eq]

theorem dget?_map_overwrite [DecidableEq κ] (d : List (κ × α)) (k : κ) (v : α) (a : κ) :
    dget? (d.map (fun e => if e.1 = k then (k, v) else e)) a =
      if a = k then (dget? d k).map (fun _ => v) else dget? d a := by
  induction d with
  | nil => by_cases h : a = k <;> simp [dget?, h]
  | cons e r ih =>
    by_cases hek : e.1 = k
    · by_cases hak : a = k
      · subst hak
        simp [List.map_cons, hek, dget?_cons, ih]
      · have hka : ¬ k = a := fun h => hak h.symm
        simp [List.map_cons, hek, dget?_cons, hak, hka, ih]
    · by_cases hea : e.1 = a
      · have hak : ¬ a = k := fun h => hek (hea.trans h)
        simp [List.map_cons, hek, dget?_cons, hea, hak]
      · simp [List.map_cons, hek, dget?_cons, hea, ih]

theorem dget?_dset [DecidableEq κ] (d : List (κ × α)) (k a : κ) (v : α) :
    dget? (dset d k v) a = if a = k then some v else dget? d a := by
  unfold dset
  by_cases hm : keyMem d k
  · rw [if_pos hm, dget?_map_overwrite]
    by_cases hak : a = k
    · rw [keyMem_true_iff] at hm
      obtain ⟨w, hw⟩ := Option.isSome_iff_exists.mp hm
      simp [hak, hw]
    · simp [hak]
  · have hm2 : keyMem d k = false := by simpa using hm
    have hnone : dget? d k = none := by
      rcases h : dget? d k with _ | w
      · rfl
      · exact absurd ((keyMem_true_iff d k).mpr (by simp [h])) (by simp [hm2])
    rw [if_neg hm, dget?_append]
    by_cases hak : a = k
    · subst hak; simp [hnone, dget?_cons]
    · have hka : ¬ k = a := fun h => hak h.symm
      rcases h : dget? d a with _ | w <;> simp [h, hak, dget?_cons, hka, dget?]

theorem keysOf_dset [DecidableEq κ] (d : List (κ × α)) (k : κ) (v : α) :
    keysOf (dset d k v) = if keyMem d k then keysOf d else keysOf d ++ [k] := by
  unfold dset
  by_cases hm : keyMem d k
  · rw [if_pos hm, if_pos hm]
    have h1 : ∀ e : κ × α, ((fun e => if e.1 = k then (k, v) else e) e).1 = e.1 := by
      intro e; by_cases h : e.1 = k <;> simp [h]
    simp only [keysOf, List.map_map]
    exact List.map_congr_left (fun e _ => h1 e)
  · rw [if_neg hm, if_neg hm]
    simp [keysOf]

theorem mem_keysOf_dset [DecidableEq κ] (d : List (κ × α)) (k : κ) (v : α) (a : κ) :
    a ∈ keysOf (dset d k v) ↔ a ∈ keysOf d ∨ a = k := by
  rw [keysOf_dset]
  by_cases hm : keyMem d k
  · rw [if_pos hm]
    constructor
    · exact Or.inl
    · rintro (h | rfl)
      · exact h
      · exact (keyMem_mem_iff d a).mp hm
  · rw [if_neg hm]
    simp [keysOf]

theorem keysOf_append (d1 d2 : List (κ × α)) :
    keysOf (d1 ++ d2) = keysOf d1 ++ keysOf d2 := by
  simp [keysOf]

theorem allNodeKeysD_append (sep : String) (d1 d2 : PyDict) :
    allNodeKeysD sep (d1 ++ d2) = allNodeKeysD sep d1 ++ allNodeKeysD sep d2 := by
  induction d1 with
  | nil => simp [allNodeKeysD]
  | cons e r ih => simp [allNodeKeysD, ih]

theorem leafD_append (sep : String) (d1 d2 : PyDict) :
    leafD sep (d1 ++ d2) = leafD sep d1 ++ leafD sep d2 := by
  induction d1 with
  | nil => simp [leafD]
  | cons e r ih => simp [leafD, ih]

theorem nodeKeys_self_mem (sep k : String) (v : PyVal) : k ∈ nodeKeys sep k v := by
  cases v <;> simp [nodeKeys]

theorem keysOf_sublist_allNodeKeysD (sep : String) (d : PyDict) :
    List.Sublist (keysOf d) (allNodeKeysD sep d) := by
  induction d with
  | nil => simp [keysOf, allNodeKeysD]
  | cons e r ih =>
    have h : ∃ t, nodeKeys sep e.1 e.2 = e.1 :: t := by
      cases h2 : e.2 <;> exact ⟨_, rfl⟩
    obtain ⟨t, ht⟩ := h
    simp only [keysOf, List.map_cons, allNodeKeysD, ht, List.cons_append]
    exact List.Sublist.cons₂ e.1 (ih.trans (List.sublist_append_right t _))

theorem allNodeKeysD_childEntries_dict (sep k : String) (l : List (String × PyVal)) :
    allNodeKeysD sep (childEntries sep k (.dict l)) = nkEntries sep k l := by
  induction l with
  | nil => rfl
  | cons e r ih =>
    simpa [childEntries, allNodeKeysD, nkEntries] using ih

theorem allNodeKeysD_enumFrom_list (sep k : String) (i : Nat) (l : List PyVal) :
    allNodeKeysD sep ((enumFromN i l).map (fun e => (k ++ sep ++ toString e.1, e.2))) =
      nkList sep k i l := by
  induction l generalizing i with
  | nil => rfl
  | cons v r ih =>
    simpa [enumFromN, allNodeKeysD, nkList] using ih (i + 1)

theorem allNodeKeysD_childEntries_list (sep k : String) (l : List PyVal) :
    allNodeKeysD sep (childEntries sep k (.list l)) = nkList sep k 0 l :=
  allNodeKeysD_enumFrom_list sep k 0 l

theorem leafD_childEntries_dict (sep k : String) (l : List (String × PyVal)) :
    leafD sep (childEntries sep k (.dict l)) = flatEntries sep k l := by
  induction l with
  | nil => rfl
  | cons e r ih =>
    simpa [childEntries, leafD, flatEntries] using ih

theorem leafD_enumFrom_list (sep k : String) (i : Nat) (l : List PyVal) :
    leafD sep ((enumFromN i l).map (fun e => (k ++ sep ++ toString e.1, e.2))) =
      flatList sep k i l := by
  induction l generalizing i with
  | nil => rfl
  | cons v r ih =>
    simpa [enumFromN, leafD, flatList] using ih (i + 1)

theorem leafD_childEntries_list (sep k : String) (l : List PyVal) :
    leafD sep (childEntries sep k (.list l)) = flatList sep k 0 l :=
  leafD_enumFrom_list sep k 0 l

theorem procEntries_false (sep : String) (todo : List (String × PyVal)) (xout : PyDict) :
    (procEntries sep todo xout false).2 = false := by
  induction todo generalizing xout with
  | nil => rfl
  | cons e rest ih =>
    rcases e with ⟨k, v⟩
    cases v <;> simp [procEntries, ih]

theorem procEntries_atoms (sep : String) (todo : List (String × PyVal)) (xout : PyDict)
    (d : Bool) (h : isFlat todo = true) :
    procEntries sep todo xout d = (xout, d) := by
  induction todo generalizing xout with
  | nil => rfl
  | cons e rest ih =>
    rcases e with ⟨k, v⟩
    cases v with
    | atom a =>
      refine ih xout ?_
      simp only [isFlat, List.all_cons, Bool.and_eq_true] at h
      exact h.2
    | dict l => simp [isFlat] at h
    | list l => simp [isFlat] at h

theorem procEntries_done (sep : String) (todo : List (String × PyVal)) (xout : PyDict)
    (h : (procEntries sep todo xout true).2 = true) :
    isFlat todo = true ∧ (procEntries sep todo xout true).1 = xout := by
  induction todo generalizing xout with
  | nil => exact ⟨rfl, rfl⟩
  | cons e rest ih =>
    rcases e with ⟨k, v⟩
    cases v with
    | atom a =>
      have h2 := ih xout (by simpa [procEntries] using h)
      refine ⟨?_, by simpa [procEntries] using h2.2⟩
      simp only [isFlat, List.all_cons, Bool.and_eq_true]
      exact ⟨trivial, by simpa [isFlat] using h2.1⟩
    | dict l =>
      exact absurd (by simpa [procEntries] using h) (by simp [procEntries_false])
    | list l =>
      exact absurd (by simpa [procEntries] using h) (by simp [procEntries_false])

theorem vdepthEntries_bound (l : List (String × PyVal)) (e : String × PyVal) (h : e ∈ l) :
    vdepth e.2 ≤ vdepthEntries l := by
  induction l with
  | nil => cases h
  | cons f r ih =>
    rcases List.mem_cons.mp h with rfl | h2
    · simp [vdepthEntries]
    · exact (ih h2).trans (by simp [vdepthEntries])

theorem vdepthList_bound (l : List PyVal) (v : PyVal) (h : v ∈ l) :
    vdepth v ≤ vdepthList l := by
  induction l with
  | nil => cases h
  | cons w r ih =>
    rcases List.mem_cons.mp h with rfl | h2
    · simp [vdepthList]
    · exact (ih h2).trans (by simp [vdepthList])

theorem mem_enumFromN (i : Nat) (l : List α) (e : Nat × α) (h : e ∈ enumFromN i l) :
    e.2 ∈ l := by
  induction l generalizing i with
  | nil => cases h
  | cons v r ih =>
    rcases List.mem_cons.mp h with rfl | h2
    · simp
    · exact List.mem_cons_of_mem _ (ih (i + 1) h2)

theorem childEntries_depth (sep k : String) (v : PyVal) (e : String × PyVal)
    (h : e ∈ childEntries sep k v) : vdepth e.2 + 1 ≤ vdepth v := by
  cases v with
  | atom a => cases h
  | dict l =>
    obtain ⟨f, hf, rfl⟩ := List.mem_map.mp h
    have := vdepthEntries_bound l f hf
    simp only [vdepth]
    omega
  | list l =>
    obtain ⟨f, hf, rfl⟩ := List.mem_map.mp h
    have := vdepthList_bound l f.2 (mem_enumFromN 0 l f hf)
    simp only [vdepth]
    omega

theorem mem_dset [DecidableEq κ] (d : List (κ × α)) (k : κ) (v : α) (e : κ × α)
    (h : e ∈ dset d k v) : e ∈ d ∨ e = (k, v) := by
  unfold dset at h
  by_cases hm : keyMem d k
  · rw [if_pos hm] at h
    obtain ⟨f, hf, hfe⟩ := List.mem_map.mp h
    by_cases hfk : f.1 = k
    · right; rw [← hfe]; simp [hfk]
    · left; rw [← hfe]; simpa [hfk] using hf
  · rw [if_neg hm] at h
    rcases List.mem_append.mp h with h2 | h2
    · exact Or.inl h2
    · exact Or.inr (List.mem_singleton.mp h2)

theorem mem_foldl_dset [DecidableEq κ] (ces : List (κ × α)) (base : List (κ × α))
    (e : κ × α) (h : e ∈ ces.foldl (fun d c => dset d c.1 c.2) base) :
    e ∈ base ∨ e ∈ ces := by
  induction ces generalizing base with
  | nil => exact Or.inl h
  | cons c r ih =>
    rcases ih (dset base c.1 c.2) h with h2 | h2
    · rcases mem_dset base c.1 c.2 e h2 with h3 | h3
      · exact Or.inl h3
      · exact Or.inr (by simp [h3])
    · exact Or.inr (List.mem_cons_of_mem _ h2)

theorem mem_ddel [DecidableEq κ] (d : List (κ × α)) (k : κ) (e : κ × α) :
    e ∈ ddel d k ↔ e ∈ d ∧ e.1 ≠ k := by
  simp [ddel, List.mem_filter]

theorem procEntries_depth (sep : String) (n : Nat) (todo : List (String × PyVal))
    (xout : PyDict) (d : Bool)
    (htodo : ∀ e ∈ todo, vdepth e.2 ≤ n + 1)
    (hout : ∀ e ∈ xout, vdepth e.2 ≤ n ∨ e ∈ todo) :
    ∀ e ∈ (procEntries sep todo xout d).1, vdepth e.2 ≤ n := by
  induction todo generalizing xout d with
  | nil =>
    intro e he
    rcases hout e he with h | h
    · exact h
    · cases h
  | cons t rest ih =>
    rcases t with ⟨k, v⟩
    cases v with
    | atom a =>
      refine ih xout d (fun e he => htodo e (List.mem_cons_of_mem _ he)) ?_
      intro e he
      rcases hout e he with h | h
      · exact Or.inl h
      · rcases List.mem_cons.mp h with rfl | h2
        · exact Or.inl (by simp [vdepth])
        · exact Or.inr h2
    | dict l =>
      refine ih _ false (fun e he => htodo e (List.mem_cons_of_mem _ he)) ?_
      intro e he
      rcases mem_foldl_dset _ _ e he with h2 | h2
      · have h3 := (mem_ddel xout k e).mp h2
        rcases hout e h3.1 with h4 | h4
        · exact Or.inl h4
        · rcases List.mem_cons.mp h4 with rfl | h5
          · exact absurd rfl h3.2
          · exact Or.inr h5
      · have h3 := childEntries_depth sep k (.dict l) e h2
        have h4 : vdepth (PyVal.dict l) ≤ n + 1 := htodo (k, .dict l) (by simp)
        exact Or.inl (by omega)
    | list l =>
      refine ih _ false (fun e he => htodo e (List.mem_cons_of_mem _ he)) ?_
      intro e he
      rcases mem_foldl_dset _ _ e he with h2 | h2
      · have h3 := (mem_ddel xout k e).mp h2
        rcases hout e h3.1 with h4 | h4
        · exact Or.inl h4
        · rcases List.mem_cons.mp h4 with rfl | h5
          · exact absurd rfl h3.2
          · exact Or.inr h5
      · have h3 := childEntries_depth sep k (.list l) e h2
        have h4 : vdepth (PyVal.list l) ≤ n + 1 := htodo (k, .list l) (by simp)
        exact Or.inl (by omega)

theorem depth_zero_flat (x : PyDict) (h : ∀ e ∈ x, vdepth e.2 = 0) : isFlat x = true := by
  unfold isFlat
  rw [List.all_eq_true]
  intro e he
  rcases h2 : e.2 with a | l | l
  · rfl
  · have := h e he; rw [h2] at this; simp [vdepth] at this
  · have := h e he; rw [h2] at this; simp [vdepth] at this

theorem runFlatten_total (sep : String) (n : Nat) :
    ∀ x : PyDict, (∀ e ∈ x, vdepth e.2 ≤ n) → (runFlatten sep (n + 1) x x).isSome := by
  induction n with
  | zero =>
    intro x hx
    have hflat : isFlat x = true := depth_zero_flat x (fun e he => Nat.le_zero.mp (hx e he))
    simp [runFlatten, procEntries_atoms sep x x true hflat]
  | succ m ih =>
    intro x hx
    rcases hproc : procEntries sep x x true with ⟨R, done⟩
    cases done with
    | true => simp [runFlatten, hproc]
    | false =>
      have hR : ∀ e ∈ R, vdepth e.2 ≤ m := by
        intro e he
        refine procEntries_depth sep m x x true hx (fun e he => Or.inr he) e ?_
        rw [hproc]; exact he
      have := ih R hR
      simpa [runFlatten, hproc] using this

theorem vdepthEntries_is_bound (x : PyDict) (e : String × PyVal) (h : e ∈ x) :
    vdepth e.2 ≤ vdepthEntries x := vdepthEntries_bound x e h

theorem runFlatten_flat (sep : String) (fuel : Nat) :
    ∀ x r : PyDict, runFlatten sep fuel x x = some r → isFlat r = true := by
  induction fuel with
  | zero => intro x r h; simp [runFlatten] at h
  | succ m ih =>
    intro x r h
    rcases hproc : procEntries sep x x true with ⟨R, done⟩
    cases done with
    | true =>
      have hd := procEntries_done sep x x (by rw [hproc])
      have hRx : R = x := by
        have h2 := hd.2
        rw [hproc] at h2
        exact h2
      rw [runFlatten, hproc] at h
      have hrR : R = r := by simpa using h
      rw [← hrR, hRx]
      exact hd.1
    | false =>
      rw [runFlatten, hproc] at h
      exact ih R r h

theorem mem_keysOf (d : List (κ × α)) (e : κ × α) (h : e ∈ d) : e.1 ∈ keysOf d :=
  List.mem_map_of_mem _ h

theorem key_mem_allNodeKeysD (sep : String) (d : PyDict) (a : String)
    (h : a ∈ keysOf d) : a ∈ allNodeKeysD sep d :=
  (keysOf_sublist_allNodeKeysD sep d).subset h

theorem dset_append_fresh [DecidableEq κ] (d : List (κ × α)) (k : κ) (v : α)
    (h : keyMem d k = false) : dset d k v = d ++ [(k, v)] := by
  simp [dset, h]

theorem foldl_dset_append [DecidableEq κ] (ces : List (κ × α)) :
    ∀ base : List (κ × α), (keysOf ces).Nodup →
      (∀ a ∈ keysOf ces, a ∉ keysOf base) →
      ces.foldl (fun d c => dset d c.1 c.2) base = base ++ ces := by
  induction ces with
  | nil => intro base _ _; simp
  | cons c r ih =>
    intro base hnd hfresh
    have hc1 : c.1 ∈ keysOf (c :: r) := by simp [keysOf]
    have hkm : keyMem base c.1 = false := by
      rcases h : keyMem base c.1
      · rfl
      · exact absurd ((keyMem_mem_iff base c.1).mp h) (hfresh c.1 hc1)
    have hnd2 : c.1 ∉ keysOf r ∧ (keysOf r).Nodup := by
      have h2 : (c.1 :: keysOf r).Nodup := by simpa [keysOf] using hnd
      exact List.nodup_cons.mp h2
    have hfresh2 : ∀ a ∈ keysOf r, a ∉ keysOf (base ++ [(c.1, c.2)]) := by
      intro a ha
      have h1 : a ∉ keysOf base := hfresh a (by simp [keysOf] at ha ⊢; exact Or.inr ha)
      have h2 : a ≠ c.1 := fun he => hnd2.1 (he ▸ ha)
      rw [keysOf_append]
      simp only [List.mem_append]
      rintro (h3 | h3)
      · exact h1 h3
      · simp [keysOf] at h3
        exact h2 h3
    rw [List.foldl_cons, dset_append_fresh base c.1 c.2 hkm, ih _ hnd2.2 hfresh2]
    simp

theorem ddel_append [DecidableEq κ] (d1 d2 : List (κ × α)) (k : κ) :
    ddel (d1 ++ d2) k = ddel d1 k ++ ddel d2 k := by
  simp [ddel]

theorem ddel_cons_self [DecidableEq κ] (k : κ) (v : α) (d : List (κ × α)) :
    ddel ((k, v) :: d) k = ddel d k := by
  simp [ddel]

theorem ddel_of_fresh [DecidableEq κ] (d : List (κ × α)) (k : κ)
    (h : ∀ e ∈ d, e.1 ≠ k) : ddel d k = d := by
  rw [ddel, List.filter_eq_self]
  intro e he
  simpa using h e he

/-- Shared reasoning for the expansion step of one pass: processing the
entry (k, v) when all joined keys are pairwise distinct deletes k, appends
the fresh child entries, preserves the multiset of flattened leaf entries
and does not grow the multiset of generated keys. -/
theorem glue_core (sep k : String) (v : PyVal) (C : List String) (F : PyDict)
    (rest : List (String × PyVal))
    (IH : ∀ (pre post : PyDict) (d : Bool),
      (allNodeKeysD sep (pre ++ rest ++ post)).Nodup →
      ((leafD sep (procEntries sep rest (pre ++ rest ++ post) d).1 : Multiset (String × PyVal)) =
        (leafD sep (pre ++ rest ++ post) : Multiset (String × PyVal)))
      ∧ ((allNodeKeysD sep (procEntries sep rest (pre ++ rest ++ post) d).1 : Multiset String) ≤
        (allNodeKeysD sep (pre ++ rest ++ post) : Multiset String)))
    (hnk : nodeKeys sep k v = k :: C)
    (hACes : allNodeKeysD sep (childEntries sep k v) = C)
    (hLCes : leafD sep (childEntries sep k v) = F)
    (hFK : flatKeys sep k v = F)
    (pre post : PyDict)
    (hnd : (allNodeKeysD sep (pre ++ ((k, v) :: rest) ++ post)).Nodup) :
    ((leafD sep (procEntries sep rest
        ((childEntries sep k v).foldl (fun d e => dset d e.1 e.2)
          (ddel (pre ++ ((k, v) :: rest) ++ post) k)) false).1 : Multiset (String × PyVal)) =
      (leafD sep (pre ++ ((k, v) :: rest) ++ post) : Multiset (String × PyVal)))
    ∧ ((allNodeKeysD sep (procEntries sep rest
        ((childEntries sep k v).foldl (fun d e => dset d e.1 e.2)
          (ddel (pre ++ ((k, v) :: rest) ++ post) k)) false).1 : Multiset String) ≤
      (allNodeKeysD sep (pre ++ ((k, v) :: rest) ++ post) : Multiset String)) := by
  have hnd1 : (allNodeKeysD sep pre ++
      (k :: (C ++ (allNodeKeysD sep rest ++ allNodeKeysD sep post)))).Nodup := by
    have h0 := hnd
    rw [allNodeKeysD_append, allNodeKeysD_append] at h0
    simpa [allNodeKeysD, hnk, List.append_assoc] using h0
  obtain ⟨ndPre, nd2, disjPre⟩ := List.nodup_append.mp hnd1
  obtain ⟨hkNot, nd3⟩ := List.nodup_cons.mp nd2
  obtain ⟨ndC, nd4, disjC⟩ := List.nodup_append.mp nd3
  obtain ⟨ndRest, ndPost, disjRP⟩ := List.nodup_append.mp nd4
  have hkMemNode : k ∈ k :: (C ++ (allNodeKeysD sep rest ++ allNodeKeysD sep post)) := by simp
  have hPreNe : ∀ e ∈ pre, e.1 ≠ k := by
    intro e he heq
    exact disjPre (key_mem_allNodeKeysD sep pre e.1 (mem_keysOf pre e he)) (heq ▸ hkMemNode)
  have hRestNe : ∀ e ∈ rest, e.1 ≠ k := by
    intro e he heq
    have h1 : k ∈ allNodeKeysD sep rest :=
      heq ▸ key_mem_allNodeKeysD sep rest e.1 (mem_keysOf rest e he)
    exact hkNot (by simp [h1])
  have hPostNe : ∀ e ∈ post, e.1 ≠ k := by
    intro e he heq
    have h1 : k ∈ allNodeKeysD sep post :=
      heq ▸ key_mem_allNodeKeysD sep post e.1 (mem_keysOf post e he)
    exact hkNot (by simp [h1])
  have hdel : ddel (pre ++ ((k, v) :: rest) ++ post) k = (pre ++ rest) ++ post := by
    rw [ddel_append, ddel_append, ddel_cons_self, ddel_of_fresh pre k hPreNe,
      ddel_of_fresh rest k hRestNe, ddel_of_fresh post k hPostNe]
  have hkeysCes : ∀ a ∈ keysOf (childEntries sep k v), a ∈ C := by
    intro a ha
    exact hACes ▸ key_mem_allNodeKeysD sep (childEntries sep k v) a ha
  have hndCes : (keysOf (childEntries sep k v)).Nodup := by
    refine List.Nodup.sublist ?_ ndC
    have := keysOf_sublist_allNodeKeysD sep (childEntries sep k v)
    rwa [hACes] at this
  have hfreshCes : ∀ a ∈ keysOf (childEntries sep k v), a ∉ keysOf ((pre ++ rest) ++ post) := by
    intro a ha
    have haC : a ∈ C := hkeysCes a ha
    rw [keysOf_append, keysOf_append]
    simp only [List.mem_append]
    rintro ((h3 | h3) | h3)
    · exact disjPre (key_mem_allNodeKeysD sep pre a h3) (by simp [haC])
    · exact disjC haC (by simp [key_mem_allNodeKeysD sep rest a h3])
    · exact disjC haC (by simp [key_mem_allNodeKeysD sep post a h3])
  have hfold : (childEntries sep k v).foldl (fun d e => dset d e.1 e.2)
      (ddel (pre ++ ((k, v) :: rest) ++ post) k) =
      (pre ++ rest) ++ (post ++ childEntries sep k v) := by
    rw [hdel, foldl_dset_append _ _ hndCes hfreshCes]
    simp [List.append_assoc]
  have hndNew : (allNodeKeysD sep ((pre ++ rest) ++ (post ++ childEntries sep k v))).Nodup := by
    have hsubl : List.Sublist
        (allNodeKeysD sep pre ++ (C ++ (allNodeKeysD sep rest ++ allNodeKeysD sep post)))
        (allNodeKeysD sep pre ++
          (k :: (C ++ (allNodeKeysD sep rest ++ allNodeKeysD sep post)))) :=
      List.Sublist.append (List.Sublist.refl _) (List.sublist_cons_self k _)
    have hndS := List.Nodup.sublist hsubl hnd1
    have hperm : (allNodeKeysD sep pre ++
        (C ++ (allNodeKeysD sep rest ++ allNodeKeysD sep post))).Perm
        (allNodeKeysD sep ((pre ++ rest) ++ (post ++ childEntries sep k v))) := by
      rw [← Multiset.coe_eq_coe]
      rw [allNodeKeysD_append, allNodeKeysD_append, allNodeKeysD_append, hACes]
      simp only [← Multiset.coe_add]
      ac_rfl
    exact hperm.nodup hndS
  have hIH := IH pre (post ++ childEntries sep k v) false hndNew
  rw [hfold]
  constructor
  · rw [hIH.1]
    rw [leafD_append, leafD_append, leafD_append, leafD_append, leafD_append, hLCes]
    have hmid : leafD sep ((k, v) :: rest) = F ++ leafD sep rest := by
      simp [leafD, hFK]
    rw [hmid]
    simp only [← Multiset.coe_add]
    ac_rfl
  · refine le_trans hIH.2 ?_
    rw [allNodeKeysD_append, allNodeKeysD_append, allNodeKeysD_append, allNodeKeysD_append,
      allNodeKeysD_append, hACes]
    have hmid : allNodeKeysD sep ((k, v) :: rest) =
        (k :: C) ++ allNodeKeysD sep rest := by
      simp [allNodeKeysD, hnk]
    rw [hmid]
    simp only [← Multiset.coe_add, ← Multiset.cons_coe]
    simp only [← Multiset.singleton_add]
    have hstep : (allNodeKeysD sep pre : Multiset String) + ({k} + (C : Multiset String)
        + (allNodeKeysD sep rest : Multiset String)) + (allNodeKeysD sep post : Multiset String)
        = (allNodeKeysD sep pre : Multiset String) + (allNodeKeysD sep rest : Multiset String)
        + ((allNodeKeysD sep post : Multiset String) + (C : Multiset String)) + {k} := by
      ac_rfl
    rw [hstep]
    exact self_le_add_right _ _

/-- One pass of flatten_json preserves the multiset of flattened leaf
entries and does not grow the multiset of generated keys, provided every
key any stage of flattening can generate is distinct. -/
theorem procEntries_glue (sep : String) (todo : List (String × PyVal)) :
    ∀ (pre post : PyDict) (d : Bool),
      (allNodeKeysD sep (pre ++ todo ++ post)).Nodup →
      ((leafD sep (procEntries sep todo (pre ++ todo ++ post) d).1 : Multiset (String × PyVal)) =
        (leafD sep (pre ++ todo ++ post) : Multiset (String × PyVal)))
      ∧ ((allNodeKeysD sep (procEntries sep todo (pre ++ todo ++ post) d).1 : Multiset String) ≤
        (allNodeKeysD sep (pre ++ todo ++ post) : Multiset String)) := by
  induction todo with
  | nil => intro pre post d hnd; exact ⟨rfl, le_refl _⟩
  | cons t rest ih =>
    rcases t with ⟨k, v⟩
    intro pre post d hnd
    cases v with
    | atom a =>
      have hL : pre ++ ((k, PyVal.atom a) :: rest) ++ post
          = (pre ++ [(k, PyVal.atom a)]) ++ rest ++ post := by simp
      simp only [procEntries]
      rw [hL] at hnd ⊢
      exact ih (pre ++ [(k, PyVal.atom a)]) post d hnd
    | dict l =>
      simp only [procEntries]
      exact glue_core sep k (.dict l) (nkEntries sep k l) (flatEntries sep k l) rest ih rfl
        (allNodeKeysD_childEntries_dict sep k l) (leafD_childEntries_dict sep k l) rfl pre post hnd
    | list l =>
      simp only [procEntries]
      exact glue_core sep k (.list l) (nkList sep k 0 l) (flatList sep k 0 l) rest ih rfl
        (allNodeKeysD_childEntries_list sep k l) (leafD_childEntries_list sep k l) rfl pre post hnd

theorem runFlatten_perm (sep : String) (fuel : Nat) :
    ∀ x r : PyDict, (allNodeKeysD sep x).Nodup → runFlatten sep fuel x x = some r →
      (leafD sep r : Multiset (String × PyVal)) = (leafD sep x : Multiset (String × PyVal)) := by
  induction fuel with
  | zero => intro x r hnd h; simp [runFlatten] at h
  | succ m ih =>
    intro x r hnd h
    rcases hproc : procEntries sep x x true with ⟨R, done⟩
    have hglue := procEntries_glue sep x [] [] true (by simpa using hnd)
    simp only [List.nil_append, List.append_nil] at hglue
    rw [hproc] at hglue
    cases done with
    | true =>
      rw [runFlatten, hproc] at h
      have hrR : R = r := by simpa using h
      rw [← hrR]
      exact hglue.1
    | false =>
      rw [runFlatten, hproc] at h
      have hndR : (allNodeKeysD sep R).Nodup := by
        have h1 := Multiset.nodup_of_le hglue.2 (by exact (Multiset.coe_nodup).mpr hnd)
        exact (Multiset.coe_nodup).mp h1
      exact (ih R r hndR h).trans hglue.1

theorem leafD_of_flat (sep : String) (d : PyDict) (h : isFlat d = true) : leafD sep d = d := by
  induction d with
  | nil => rfl
  | cons e r ih =>
    simp only [isFlat, List.all_cons, Bool.and_eq_true] at h
    rcases h2 : e.2 with a | l | l
    · have he : e = (e.1, PyVal.atom a) := by
        rcases e with ⟨k0, v0⟩
        simp only at h2
        rw [h2]
      rw [leafD, he]
      simp only [flatKeys]
      have : isFlat r = true := by simp only [isFlat]; exact h.2
      rw [ih this]
      simp
    · rw [h2] at h; simp at h
    · rw [h2] at h; simp at h

theorem flatten_json_flat_perm (sep : String) (x : PyDict)
    (hnd : (allNodeKeysD sep x).Nodup) :
    isFlat (flatten_json sep x) = true ∧ (flatten_json sep x).Perm (leafD sep x) := by
  have htot := runFlatten_total sep (vdepthEntries x) x (fun e he => vdepthEntries_bound x e he)
  obtain ⟨r, hr⟩ := Option.isSome_iff_exists.mp htot
  have hflat := runFlatten_flat sep (vdepthEntries x + 1) x r hr
  have hperm := runFlatten_perm sep (vdepthEntries x + 1) x r hnd hr
  have hfj : flatten_json sep x = r := by simp [flatten_json, hr]
  rw [hfj]
  refine ⟨hflat, ?_⟩
  rw [leafD_of_flat sep r hflat] at hperm
  exact Multiset.coe_eq_coe.mp hperm

theorem flatten_json_of_flat (sep : String) (y : PyDict) (h : isFlat y = true) :
    flatten_json sep y = y := by
  have hp := procEntries_atoms sep y y true h
  simp [flatten_json, runFlatten, hp]

theorem flatten_json_idem (sep : String) (x : PyDict) :
    flatten_json sep (flatten_json sep x) = flatten_json sep x := by
  have htot := runFlatten_total sep (vdepthEntries x) x (fun e he => vdepthEntries_bound x e he)
  obtain ⟨r, hr⟩ := Option.isSome_iff_exists.mp htot
  have hfj : flatten_json sep x = r := by simp [flatten_json, hr]
  rw [hfj]
  exact flatten_json_of_flat sep r (runFlatten_flat sep (vdepthEntries x + 1) x r hr)

theorem getElem?_zipWith (f : α → β → γ) (a : List α) (b : List β) (i : Nat) :
    (List.zipWith f a b)[i]? =
      a[i]?.bind (fun x => b[i]?.map (fun y => f x y)) := by
  induction a generalizing b i with
  | nil => simp
  | cons x t ih =>
    cases b with
    | nil => simp
    | cons y u =>
      cases i with
      | zero => simp
      | succ j => simpa using ih u j

theorem dget?_mem [DecidableEq κ] (d : List (κ × α)) (k : κ) (v : α)
    (h : dget? d k = some v) : ∃ e ∈ d, e.1 = k ∧ e.2 = v := by
  unfold dget? at h
  rcases hf : d.find? (fun e => e.1 = k) with _ | e
  · rw [hf] at h; simp at h
  · rw [hf] at h
    simp at h
    refine ⟨e, List.mem_of_find?_eq_some hf, ?_, h⟩
    have h2 := List.find?_some hf
    simpa using h2

theorem eid_match_fold (p : FileStorageParser) (criteria : List (String × PyVal))
    (hwf : ∀ c ∈ p.cfg, c.2.length = p.eids.length)
    (hkeys : ∀ kv ∈ criteria, kv.1 ∈ colNames p) :
    ∀ mask : List Bool, mask.length = p.eids.length →
      ∃ m2, List.foldlM
          (fun mask kv =>
            (dget? p.cfg kv.1).map
              (fun s => mask.zipWith (· && ·) (s.map (fun w => pvBeq w kv.2))))
          mask criteria = some m2
        ∧ m2.length = p.eids.length
        ∧ ∀ i, m2[i]? = mask[i]?.map (fun b => b && rowIdxMatch p criteria i) := by
  induction criteria with
  | nil =>
    intro mask hlen
    refine ⟨mask, rfl, hlen, ?_⟩
    intro i
    rcases h : mask[i]? with _ | b <;> simp [h, rowIdxMatch]
  | cons kv cr ih =>
    have hkeys2 : ∀ e ∈ cr, e.1 ∈ colNames p := fun e he => hkeys e (by simp [he])
    intro mask hlen
    have hcol : kv.1 ∈ colNames p := hkeys kv (by simp)
    have hsome : (dget? p.cfg kv.1).isSome := by
      rw [← keyMem_true_iff]; exact (keyMem_mem_iff _ _).mpr hcol
    obtain ⟨s, hs⟩ := Option.isSome_iff_exists.mp hsome
    have hslen : s.length = p.eids.length := by
      obtain ⟨e, he, _, hev⟩ := dget?_mem p.cfg kv.1 s hs
      rw [← hev]; exact hwf e he
    have hlen2 : (mask.zipWith (· && ·) (s.map (fun w => pvBeq w kv.2))).length
        = p.eids.length := by
      simp [List.length_zipWith, hlen, hslen]
    obtain ⟨m2, hfold2, hlen3, hget⟩ := ih hkeys2 _ hlen2
    refine ⟨m2, ?_, hlen3, ?_⟩
    · show ((dget? p.cfg kv.1).map
          (fun s => mask.zipWith (· && ·) (s.map (fun w => pvBeq w kv.2)))).bind _ = some m2
      rw [hs]
      simpa using hfold2
    · intro i
      rw [hget i, getElem?_zipWith, List.getElem?_map]
      by_cases hi : i < p.eids.length
      · have hbm : mask[i]? = some (mask[i]) := by
          exact (List.getElem?_eq_some_getElem_iff mask i (by omega)).mpr trivial
        have hsm : s[i]? = some (s[i]) := by
          exact (List.getElem?_eq_some_getElem_iff s i (by omega)).mpr trivial
        have hcell : cellMatch p kv.1 i kv.2 = pvBeq (s[i]) kv.2 := by
          unfold cellMatch
          rw [hs]
          show (match s.get? i with
            | none => false
            | some w => pvBeq w kv.2) = pvBeq s[i] kv.2
          rw [show s.get? i = some s[i] from by rw [List.get?_eq_getElem?]; exact hsm]
        rw [hbm, hsm]
        simp [rowIdxMatch, hcell, Bool.and_assoc]
      · have h1 : mask[i]? = none := List.getElem?_eq_none_iff.mpr (by omega)
        have h2 : s[i]? = none := List.getElem?_eq_none_iff.mpr (by omega)
        simp [h1, h2]

theorem zip_replicate_filter (l : List Int) :
    ((l.zip (List.replicate l.length true)).filter (fun e => e.2)).map (fun e => e.1) = l := by
  induction l with
  | nil => rfl
  | cons a t ih =>
    simp only [List.length_cons, List.replicate_succ, List.zip_cons_cons, List.filter_cons]
    simpa using ih

theorem zip_filter_eq_filter_indexOf (l : List Int) :
    ∀ (m : List Bool) (g : Nat → Bool), l.Nodup → m.length = l.length →
      (∀ i, i < l.length → m[i]? = some (g i)) →
      ((l.zip m).filter (fun e => e.2)).map (fun e => e.1)
        = l.filter (fun e => g (l.indexOf e)) := by
  induction l with
  | nil => intro m g _ _ _; simp
  | cons a t ih =>
    intro m g hnd hlen hm
    rcases m with _ | ⟨b, mt⟩
    · simp at hlen
    · have hb : b = g 0 := by
        have h0 := hm 0 (by simp)
        simpa using h0
      have hndt : t.Nodup := (List.nodup_cons.mp hnd).2
      have hna : a ∉ t := (List.nodup_cons.mp hnd).1
      have hrec := ih mt (fun i => g (i + 1)) hndt (by simpa using hlen)
        (fun i hi => by
          have := hm (i + 1) (by simpa using hi)
          simpa using this)
      have hidx : t.filter (fun e => g ((a :: t).indexOf e))
          = t.filter (fun e => g (t.indexOf e + 1)) := by
        refine List.filter_congr ?_
        intro e he
        have hne : a ≠ e := fun h => hna (h ▸ he)
        rw [List.indexOf_cons_ne t hne]
      rw [hb]
      cases hgb : g 0 with
      | true =>
        simp only [List.zip_cons_cons, List.filter_cons, List.indexOf_cons_self, hgb,
          if_true, List.map_cons]
        rw [hrec, hidx]
      | false =>
        simp only [List.zip_cons_cons, List.filter_cons, List.indexOf_cons_self, hgb]
        rw [if_neg (by simp), if_neg (by simp)]
        rw [hrec, hidx]

theorem eid_match_empty (p : FileStorageParser) : eid_match p [] = some p.eids := by
  unfold eid_match
  show some ((((p.eids.zip (List.replicate p.eids.length true)).filter
    (fun e => e.2))).map (fun e => e.1)) = some p.eids
  rw [zip_replicate_filter]

/-- Claim C1: with empty criteria eid_match selects every run id; with
criteria mapping existing columns it selects exactly the run ids whose
config-table row equals the supplied value in every supplied column, in
the (ascending) order of the run index. -/
theorem eid_match_spec (p : FileStorageParser) (criteria : List (String × PyVal))
    (hwf : ∀ c ∈ p.cfg, c.2.length = p.eids.length)
    (hnd : p.eids.Nodup)
    (hsort : List.Sorted (· ≤ ·) p.eids)
    (hkeys : ∀ kv ∈ criteria, kv.1 ∈ colNames p) :
    eid_match p [] = some p.eids
    ∧ eid_match p criteria = some (p.eids.filter (rowMatches p criteria))
    ∧ List.Sorted (· ≤ ·) (p.eids.filter (rowMatches p criteria)) := by
  refine ⟨eid_match_empty p, ?_, List.Pairwise.filter _ hsort⟩
  obtain ⟨m2, hfold, hlen, hget⟩ := eid_match_fold p criteria hwf hkeys
    (List.replicate p.eids.length true) (by simp)
  unfold eid_match
  rw [hfold]
  show some ((((p.eids.zip m2).filter (fun e => e.2))).map (fun e => e.1))
    = some (p.eids.filter (rowMatches p criteria))
  have hm : ∀ i, i < p.eids.length → m2[i]? = some (rowIdxMatch p criteria i) := by
    intro i hi
    rw [hget i]
    rw [show (List.replicate p.eids.length true)[i]? = some true from by
      simp [List.getElem?_replicate, hi]]
    simp
  rw [zip_filter_eq_filter_indexOf p.eids m2 (fun i => rowIdxMatch p criteria i) hnd hlen hm]
  rfl

theorem eid_match_spec_witness :
    (∀ c ∈ pEx.cfg, c.2.length = pEx.eids.length)
    ∧ pEx.eids.Nodup
    ∧ List.Sorted (· ≤ ·) pEx.eids
    ∧ (∀ kv ∈ [(("lr" : String), PyVal.atom (.int 5))], kv.1 ∈ colNames pEx)
    ∧ (eid_match pEx [] = some pEx.eids
      ∧ eid_match pEx [("lr", .atom (.int 5))]
          = some (pEx.eids.filter (rowMatches pEx [("lr", .atom (.int 5))]))
      ∧ List.Sorted (· ≤ ·) (pEx.eids.filter (rowMatches pEx [("lr", .atom (.int 5))]))) :=
  ⟨by decide, by decide, by decide, by decide,
    eid_match_spec pEx [("lr", .atom (.int 5))] (by decide) (by decide) (by decide) (by decide)⟩

theorem parseAll_all_some (l : List String) (h : ∀ f ∈ l, (pyIntParse f).isSome) :
    parseAll l = some (l.filterMap pyIntParse)
    ∧ (l.filterMap pyIntParse).length = l.length := by
  induction l with
  | nil => exact ⟨rfl, rfl⟩
  | cons f r ih =>
    obtain ⟨v, hv⟩ := Option.isSome_iff_exists.mp (h f (by simp))
    have ihr := ih (fun g hg => h g (by simp [hg]))
    constructor
    · unfold parseAll
      rw [hv, ihr.1]
      simp [List.filterMap_cons, hv]
    · simp [List.filterMap_cons, hv, ihr.2]

/-- Claim C2 counterexample: the directory name "a1" contains a digit, so
discovery accepts it, but int("a1") raises ValueError: discover neither
returns run ids nor fails with NoRunsFoundError. -/
theorem discover_digit_name_cex :
    hasDigit "a1" = true ∧ discover ["a1"] = .error .valueError := by
  constructor
  · decide
  · rfl

/-- Claim C2 (amended): discovery accepts exactly the names containing a
digit; when every accepted name parses as a Python integer literal it
returns their values sorted ascending (NoRunsFoundError when none
qualify); an accepted name that fails integer parsing raises ValueError
instead. -/
theorem discover_spec_amended (names : List String)
    (hparse : ∀ f ∈ names, hasDigit f = true → (pyIntParse f).isSome) :
    (names.filter hasDigit = [] → discover names = .error .noRunsFound)
    ∧ (∀ l, discover names = .ok l →
        List.Sorted (· ≤ ·) l ∧ l.Perm ((names.filter hasDigit).filterMap pyIntParse))
    ∧ (names.filter hasDigit ≠ [] → ∃ l, discover names = .ok l) := by
  have hall : ∀ f ∈ names.filter hasDigit, (pyIntParse f).isSome := by
    intro f hf
    have h2 := List.mem_filter.mp hf
    exact hparse f h2.1 h2.2
  obtain ⟨hpa, hlen⟩ := parseAll_all_some (names.filter hasDigit) hall
  have hd : discover names =
      if ((names.filter hasDigit).filterMap pyIntParse).isEmpty
        then Except.error .noRunsFound
        else .ok (((names.filter hasDigit).filterMap pyIntParse).insertionSort (· ≤ ·)) := by
    unfold discover
    rw [hpa]
  refine ⟨?_, ?_, ?_⟩
  · intro hempty
    rw [hd, hempty]
    rfl
  · intro l hl
    rw [hd] at hl
    by_cases he : ((names.filter hasDigit).filterMap pyIntParse).isEmpty
    · rw [if_pos he] at hl
      cases hl
    · rw [if_neg he] at hl
      have hl2 : l = ((names.filter hasDigit).filterMap pyIntParse).insertionSort (· ≤ ·) := by
        cases hl
        rfl
      rw [hl2]
      exact ⟨List.sorted_insertionSort (· ≤ ·) _, List.perm_insertionSort (· ≤ ·) _⟩
  · intro hne
    rw [hd]
    have hlen2 : ((names.filter hasDigit).filterMap pyIntParse).length ≠ 0 := by
      rw [hlen]
      exact fun h0 => hne (List.eq_nil_of_length_eq_zero h0)
    have he : ((names.filter hasDigit).filterMap pyIntParse).isEmpty = false := by
      rcases h2 : (names.filter hasDigit).filterMap pyIntParse with _ | ⟨x, xs⟩
      · rw [h2] at hlen2; simp at hlen2
      · rfl
    rw [if_neg (by simp [he])]
    exact ⟨_, rfl⟩

theorem discover_spec_amended_witness :
    (∀ f ∈ ["0", "1", "5", "not_a_run"], hasDigit f = true → (pyIntParse f).isSome)
    ∧ ((["0", "1", "5", "not_a_run"].filter hasDigit = []
          → discover ["0", "1", "5", "not_a_run"] = .error .noRunsFound)
      ∧ (∀ l, discover ["0", "1", "5", "not_a_run"] = .ok l →
          List.Sorted (· ≤ ·) l
          ∧ l.Perm ((["0", "1", "5", "not_a_run"].filter hasDigit).filterMap pyIntParse))
      ∧ (["0", "1", "5", "not_a_run"].filter hasDigit ≠ []
          → ∃ l, discover ["0", "1", "5", "not_a_run"] = .ok l)) :=
  ⟨by decide, discover_spec_amended ["0", "1", "5", "not_a_run"] (by decide)⟩

theorem pyKwargs_get (p : FileStorageParser) (eid : Int) (argnames : List String) :
    ∀ (d : PyDict) (a : String),
      dget? (argnames.foldl
        (fun d arg => if arg ∈ argnamesOf p then dset d arg (kwargsValue p arg eid) else d) d) a
      = if a ∈ argnames ∧ a ∈ argnamesOf p then some (kwargsValue p a eid) else dget? d a := by
  induction argnames with
  | nil => intro d a; simp
  | cons g r ih =>
    intro d a
    rw [List.foldl_cons]
    by_cases hg : g ∈ argnamesOf p
    · rw [if_pos hg, ih]
      by_cases har : a ∈ r ∧ a ∈ argnamesOf p
      · rw [if_pos har, if_pos ⟨by simp [har.1], har.2⟩]
      · rw [if_neg har, dget?_dset]
        by_cases hag : a = g
        · subst hag
          rw [if_pos rfl, if_pos ⟨by simp, hg⟩]
        · rw [if_neg hag]
          by_cases ha2 : a ∈ g :: r ∧ a ∈ argnamesOf p
          · exact absurd ⟨(List.mem_cons.mp ha2.1).resolve_left hag, ha2.2⟩ har
          · rw [if_neg ha2]
    · rw [if_neg hg, ih]
      by_cases har : a ∈ r ∧ a ∈ argnamesOf p
      · rw [if_pos har, if_pos ⟨by simp [har.1], har.2⟩]
      · rw [if_neg har]
        by_cases ha2 : a ∈ g :: r ∧ a ∈ argnamesOf p
        · exfalso
          rcases List.mem_cons.mp ha2.1 with rfl | h3
          · exact hg ha2.2
          · exact har ⟨h3, ha2.2⟩
        · rw [if_neg ha2]

theorem rowVal_isSome (p : FileStorageParser) (a : String) (eid : Int)
    (hwf : ∀ c ∈ p.cfg, c.2.length = p.eids.length)
    (heid : eid ∈ p.eids) (hcol : a ∈ colNames p) : (rowVal p a eid).isSome := by
  have hsome : (dget? p.cfg a).isSome := by
    rw [← keyMem_true_iff]; exact (keyMem_mem_iff _ _).mpr hcol
  obtain ⟨s, hs⟩ := Option.isSome_iff_exists.mp hsome
  have hslen : s.length = p.eids.length := by
    obtain ⟨e, he, _, hev⟩ := dget?_mem _ _ _ hs
    rw [← hev]; exact hwf e he
  have hidx : p.eids.indexOf eid < p.eids.length := List.indexOf_lt_length.mpr heid
  unfold rowVal
  rw [hs]
  show (s.get? (p.eids.indexOf eid)).isSome
  rw [List.get?_eq_get (by omega)]
  rfl

theorem artVal_isSome (p : FileStorageParser) (a : String) (eid : Int)
    (hart : ∀ m ∈ p.artifacts, keysOf m.2 = p.eids)
    (heid : eid ∈ p.eids) (hmem : a ∈ artNames p) : (artVal p a eid).isSome := by
  have hsome : (dget? p.artifacts a).isSome := by
    rw [← keyMem_true_iff]; exact (keyMem_mem_iff _ _).mpr hmem
  obtain ⟨m, hm⟩ := Option.isSome_iff_exists.mp hsome
  have hkeys : keysOf m = p.eids := by
    obtain ⟨e, he, _, hev⟩ := dget?_mem _ _ _ hm
    rw [← hev]; exact hart e he
  unfold artVal
  rw [hm]
  show (dget? m eid).isSome
  rw [← keyMem_true_iff]
  exact (keyMem_mem_iff _ _).mpr (hkeys ▸ heid)

/-- Claim C5: the injection engine resolves "eid" to the run id itself,
otherwise a config column to the run's value in that column, otherwise an
artifact name to the run's artifact value, and silently omits any other
name from the resulting kwargs dict. -/
theorem kwargs_resolution_spec (p : FileStorageParser) (argnames : List String) (eid : Int)
    (hwf : ∀ c ∈ p.cfg, c.2.length = p.eids.length)
    (hart : ∀ m ∈ p.artifacts, keysOf m.2 = p.eids)
    (heid : eid ∈ p.eids) :
    ("eid" ∈ argnames → dget? (pyKwargs p argnames eid) "eid" = some (.atom (.int eid)))
    ∧ (∀ a ∈ argnames, a ≠ "eid" → a ∈ colNames p →
        dget? (pyKwargs p argnames eid) a = some ((rowVal p a eid).getD (.atom .none))
        ∧ (rowVal p a eid).isSome)
    ∧ (∀ a ∈ argnames, a ≠ "eid" → a ∉ colNames p → a ∈ artNames p →
        dget? (pyKwargs p argnames eid) a = some ((artVal p a eid).getD (.atom .none))
        ∧ (artVal p a eid).isSome)
    ∧ (∀ a ∈ argnames, a ∉ argnamesOf p → dget? (pyKwargs p argnames eid) a = none)
    ∧ (∀ a, a ∉ argnames → dget? (pyKwargs p argnames eid) a = none) := by
  have hget := pyKwargs_get p eid argnames []
  refine ⟨?_, ?_, ?_, ?_, ?_⟩
  · intro hmem
    rw [show pyKwargs p argnames eid = argnames.foldl
      (fun d arg => if arg ∈ argnamesOf p then dset d arg (kwargsValue p arg eid) else d) []
      from rfl, hget "eid"]
    rw [if_pos ⟨hmem, by simp [argnamesOf]⟩]
    simp [kwargsValue]
  · intro a hmem hne hcol
    refine ⟨?_, rowVal_isSome p a eid hwf heid hcol⟩
    rw [show pyKwargs p argnames eid = argnames.foldl
      (fun d arg => if arg ∈ argnamesOf p then dset d arg (kwargsValue p arg eid) else d) []
      from rfl, hget a]
    rw [if_pos ⟨hmem, by
      simp only [argnamesOf, List.mem_append, List.mem_singleton]
      exact Or.inl (Or.inr hcol)⟩]
    simp [kwargsValue, hne, hcol]
  · intro a hmem hne hcol hartm
    refine ⟨?_, artVal_isSome p a eid hart heid hartm⟩
    rw [show pyKwargs p argnames eid = argnames.foldl
      (fun d arg => if arg ∈ argnamesOf p then dset d arg (kwargsValue p arg eid) else d) []
      from rfl, hget a]
    rw [if_pos ⟨hmem, by
      simp only [argnamesOf, List.mem_append, List.mem_singleton]
      exact Or.inr hartm⟩]
    simp [kwargsValue, hne, hcol, hartm]
  · intro a hmem hnot
    rw [show pyKwargs p argnames eid = argnames.foldl
      (fun d arg => if arg ∈ argnamesOf p then dset d arg (kwargsValue p arg eid) else d) []
      from rfl, hget a]
    rw [if_neg (fun h2 => hnot h2.2)]
    rfl
  · intro a hnot
    rw [show pyKwargs p argnames eid = argnames.foldl
      (fun d arg => if arg ∈ argnamesOf p then dset d arg (kwargsValue p arg eid) else d) []
      from rfl, hget a]
    rw [if_neg (fun h2 => hnot h2.1)]
    rfl

theorem kwargs_resolution_spec_witness :
    (∀ c ∈ pEx.cfg, c.2.length = pEx.eids.length)
    ∧ (∀ m ∈ pEx.artifacts, keysOf m.2 = pEx.eids)
    ∧ (1 : Int) ∈ pEx.eids
    ∧ (("eid" ∈ ["eid", "lr", "foo", "other"] →
        dget? (pyKwargs pEx ["eid", "lr", "foo", "other"] 1) "eid" = some (.atom (.int 1)))
      ∧ (∀ a ∈ ["eid", "lr", "foo", "other"], a ≠ "eid" → a ∈ colNames pEx →
          dget? (pyKwargs pEx ["eid", "lr", "foo", "other"] 1) a
            = some ((rowVal pEx a 1).getD (.atom .none))
          ∧ (rowVal pEx a 1).isSome)
      ∧ (∀ a ∈ ["eid", "lr", "foo", "other"], a ≠ "eid" → a ∉ colNames pEx →
          a ∈ artNames pEx →
          dget? (pyKwargs pEx ["eid", "lr", "foo", "other"] 1) a
            = some ((artVal pEx a 1).getD (.atom .none))
          ∧ (artVal pEx a 1).isSome)
      ∧ (∀ a ∈ ["eid", "lr", "foo", "other"], a ∉ argnamesOf pEx →
          dget? (pyKwargs pEx ["eid", "lr", "foo", "other"] 1) a = none)
      ∧ (∀ a, a ∉ ["eid", "lr", "foo", "other"] →
          dget? (pyKwargs pEx ["eid", "lr", "foo", "other"] 1) a = none)) :=
  ⟨by decide, by decide, by decide,
    kwargs_resolution_spec pEx ["eid", "lr", "foo", "other"] 1 (by decide) (by decide) (by decide)⟩

/-- Claim C9: add_artifact rejects "eid" (ReservedNameError) and existing
config columns (NameCollisionError); add_cfg_col rejects "eid" and
existing artifact names, and overwrites an existing column with a
non-fatal warning instead of raising. -/
theorem add_ops_error_spec (p : FileStorageParser) (name : String) (argnames : List String)
    (f : PyDict → PyVal)
    (hne : name ≠ "eid") :
    add_artifact p "eid" argnames f = .error .reservedName
    ∧ add_cfg_col p "eid" argnames f = .error .reservedName
    ∧ (name ∈ colNames p → add_artifact p name argnames f = .error .nameCollision)
    ∧ (name ∈ artNames p → add_cfg_col p name argnames f = .error .nameCollision)
    ∧ (name ∉ artNames p → name ∈ colNames p →
        add_cfg_col p name argnames f
          = .ok ({ p with cfg := dset p.cfg name (newColumn p argnames f) }, true)
        ∧ keysOf (dset p.cfg name (newColumn p argnames f)) = colNames p
        ∧ dget? (dset p.cfg name (newColumn p argnames f)) name
            = some (newColumn p argnames f)) := by
  refine ⟨by simp [add_artifact], by simp [add_cfg_col], ?_, ?_, ?_⟩
  · intro h2
    simp [add_artifact, hne, h2]
  · intro h2
    simp [add_cfg_col, hne, h2]
  · intro h2 h3
    refine ⟨?_, ?_, ?_⟩
    · simp [add_cfg_col, hne, h2, h3, newColumn]
    · rw [keysOf_dset, if_pos ((keyMem_mem_iff _ _).mpr h3)]
      rfl
    · rw [dget?_dset, if_pos rfl]

theorem add_ops_error_spec_witness :
    ("lr" : String) ≠ "eid"
    ∧ (add_artifact pEx "eid" ["eid"] (fun _ => .atom .none) = .error .reservedName
      ∧ add_cfg_col pEx "eid" ["eid"] (fun _ => .atom .none) = .error .reservedName
      ∧ (("lr" : String) ∈ colNames pEx →
          add_artifact pEx "lr" ["eid"] (fun _ => .atom .none) = .error .nameCollision)
      ∧ (("lr" : String) ∈ artNames pEx →
          add_cfg_col pEx "lr" ["eid"] (fun _ => .atom .none) = .error .nameCollision)
      ∧ (("lr" : String) ∉ artNames pEx → ("lr" : String) ∈ colNames pEx →
          add_cfg_col pEx "lr" ["eid"] (fun _ => .atom .none)
            = .ok ({ pEx with cfg := dset pEx.cfg "lr" (newColumn pEx ["eid"] (fun _ => .atom .none)) }, true)
          ∧ keysOf (dset pEx.cfg "lr" (newColumn pEx ["eid"] (fun _ => .atom .none))) = colNames pEx
          ∧ dget? (dset pEx.cfg "lr" (newColumn pEx ["eid"] (fun _ => .atom .none))) "lr"
              = some (newColumn pEx ["eid"] (fun _ => .atom .none)))) :=
  ⟨by decide, add_ops_error_spec pEx "lr" ["eid"] (fun _ => .atom .none) (by decide)⟩

/-- Claim C10: when the new name is an existing artifact name (and neither
"eid" nor a column), add_artifact succeeds, never warns, and replaces the
entire per-run mapping stored under that name; add_cfg_col by contrast
warns when it overwrites a column. -/
theorem add_artifact_overwrite_spec (p : FileStorageParser) (name : String)
    (argnames : List String) (f : PyDict → PyVal)
    (h1 : name ≠ "eid") (h2 : name ∉ colNames p) (h3 : name ∈ artNames p) :
    add_artifact p name argnames f
      = .ok ({ p with artifacts := dset p.artifacts name (newArtifact p argnames f) }, false)
    ∧ dget? (dset p.artifacts name (newArtifact p argnames f)) name
        = some (newArtifact p argnames f)
    ∧ keysOf (dset p.artifacts name (newArtifact p argnames f)) = artNames p
    ∧ (∀ q : FileStorageParser, name ∉ artNames q → name ∈ colNames q →
        ∃ q2, add_cfg_col q name argnames f = .ok (q2, true)) := by
  refine ⟨?_, ?_, ?_, ?_⟩
  · simp [add_artifact, h1, h2, newArtifact]
  · rw [dget?_dset, if_pos rfl]
  · rw [keysOf_dset, if_pos ((keyMem_mem_iff _ _).mpr h3)]
    rfl
  · intro q hq1 hq2
    refine ⟨{ q with cfg := dset q.cfg name (newColumn q argnames f) }, ?_⟩
    simp [add_cfg_col, h1, hq1, hq2, newColumn]

theorem add_artifact_overwrite_spec_witness :
    (("foo" : String) ≠ "eid" ∧ ("foo" : String) ∉ colNames pEx
      ∧ ("foo" : String) ∈ artNames pEx)
    ∧ (add_artifact pEx "foo" ["eid"] (fun _ => .atom .none)
        = .ok ({ pEx with artifacts := dset pEx.artifacts "foo" (newArtifact pEx ["eid"] (fun _ => .atom .none)) }, false)
      ∧ dget? (dset pEx.artifacts "foo" (newArtifact pEx ["eid"] (fun _ => .atom .none))) "foo"
          = some (newArtifact pEx ["eid"] (fun _ => .atom .none))
      ∧ keysOf (dset pEx.artifacts "foo" (newArtifact pEx ["eid"] (fun _ => .atom .none)))
          = artNames pEx
      ∧ (∀ q : FileStorageParser, ("foo" : String) ∉ artNames q → ("foo" : String) ∈ colNames q →
          ∃ q2, add_cfg_col q "foo" ["eid"] (fun _ => .atom .none) = .ok (q2, true))) :=
  ⟨⟨by decide, by decide, by decide⟩,
    add_artifact_overwrite_spec pEx "foo" ["eid"] (fun _ => .atom .none)
      (by decide) (by decide) (by decide)⟩

/-- Claim C4 (amended): the two add operations preserve the namespace
invariant (and refuse names that would break it), but the constructor
performs no such check, so construction can already violate it (see the
counterexample). -/
theorem ns_invariant_preserved (p : FileStorageParser) (name : String)
    (argnames : List String) (f : PyDict → PyVal) (q : FileStorageParser) (w : Bool)
    (hinv : nsInvariant p) :
    (add_artifact p name argnames f = .ok (q, w) → nsInvariant q)
    ∧ (add_cfg_col p name argnames f = .ok (q, w) → nsInvariant q) := by
  constructor
  · intro h
    unfold add_artifact at h
    by_cases he : name = "eid"
    · rw [if_pos he] at h; cases h
    rw [if_neg he] at h
    by_cases hc : name ∈ colNames p
    · rw [if_pos hc] at h; cases h
    rw [if_neg hc] at h
    have hq : q = { p with artifacts := dset p.artifacts name (newArtifact p argnames f) } := by
      cases h; rfl
    subst hq
    refine ⟨?_, hinv.2.1, ?_⟩
    · intro c hcq
      have hcq2 : c ∈ colNames p := hcq
      rw [show artNames { p with artifacts := dset p.artifacts name (newArtifact p argnames f) }
        = keysOf (dset p.artifacts name (newArtifact p argnames f)) from rfl]
      intro hmem
      rcases (mem_keysOf_dset _ _ _ _).mp hmem with h4 | rfl
      · exact hinv.1 c hcq2 h4
      · exact hc hcq2
    · rw [show artNames { p with artifacts := dset p.artifacts name (newArtifact p argnames f) }
        = keysOf (dset p.artifacts name (newArtifact p argnames f)) from rfl]
      intro hmem
      rcases (mem_keysOf_dset _ _ _ _).mp hmem with h4 | h4
      · exact hinv.2.2 h4
      · exact he h4.symm
  · intro h
    unfold add_cfg_col at h
    by_cases he : name = "eid"
    · rw [if_pos he] at h; cases h
    rw [if_neg he] at h
    by_cases ha : name ∈ artNames p
    · rw [if_pos ha] at h; cases h
    rw [if_neg ha] at h
    have hq : q = { p with cfg := dset p.cfg name (newColumn p argnames f) } := by
      cases h; rfl
    subst hq
    have hcols : ∀ c, c ∈ colNames { p with cfg := dset p.cfg name (newColumn p argnames f) }
        ↔ c ∈ colNames p ∨ c = name := by
      intro c
      exact mem_keysOf_dset _ _ _ _
    refine ⟨?_, ?_, hinv.2.2⟩
    · intro c hcq
      rcases (hcols c).mp hcq with h4 | rfl
      · exact hinv.1 c h4
      · exact ha
    · intro hmem
      rcases (hcols "eid").mp hmem with h4 | h4
      · exact hinv.2.1 h4
      · exact he h4.symm

theorem ns_invariant_preserved_witness :
    nsInvariant pEx
    ∧ ((add_artifact pEx "bar" ["eid"] (fun _ => .atom .none)
          = .ok ({ pEx with artifacts := dset pEx.artifacts "bar" (newArtifact pEx ["eid"] (fun _ => .atom .none)) }, false)
        → nsInvariant { pEx with artifacts := dset pEx.artifacts "bar" (newArtifact pEx ["eid"] (fun _ => .atom .none)) })
      ∧ (add_cfg_col pEx "bar" ["eid"] (fun _ => .atom .none)
          = .ok ({ pEx with artifacts := dset pEx.artifacts "bar" (newArtifact pEx ["eid"] (fun _ => .atom .none)) }, false)
        → nsInvariant { pEx with artifacts := dset pEx.artifacts "bar" (newArtifact pEx ["eid"] (fun _ => .atom .none)) })) :=
  ⟨by decide,
    ns_invariant_preserved pEx "bar" ["eid"] (fun _ => .atom .none)
      { pEx with artifacts := dset pEx.artifacts "bar" (newArtifact pEx ["eid"] (fun _ => .atom .none)) }
      false (by decide)⟩

/-- Claim C4 counterexample: constructing from a run whose directory holds
artifact files lr.json and eid.json while the config defines the column lr
succeeds and yields a state where "lr" is both a column and an artifact
name and "eid" is an artifact name - the claimed invariant is false in a
reachable post-construction state, and no NameCollisionError is raised. -/
theorem construct_invariant_cex :
    ((construct false runsClash).1.map
      (fun q => decide ("lr" ∈ colNames q ∧ "lr" ∈ artNames q ∧ "eid" ∈ artNames q
        ∧ ¬ nsInvariant q))) = .ok true := by
  rfl

theorem loadAll_ok_trace (fname : String) :
    ∀ (runs : List (Int × RunFS)) (m : List (Int × PyVal)) (tr : List (Int × String)),
      loadAll fname runs = (.ok m, tr) →
      tr = runs.foldr (fun r t2 => (load_file_tr r.1 r.2 fname).2 ++ t2) [] := by
  intro runs
  induction runs with
  | nil =>
    intro m tr h
    unfold loadAll at h
    cases h
    rfl
  | cons r rest ih =>
    intro m tr h
    unfold loadAll at h
    rcases h1 : load_file_tr r.1 r.2 fname with ⟨res1, tr1⟩
    rw [h1] at h
    cases res1 with
    | error err => cases h
    | ok v =>
      rcases h2 : loadAll fname rest with ⟨res2, tr2⟩
      rw [h2] at h
      cases res2 with
      | error err => cases h
      | ok vs =>
        have htr : tr = tr1 ++ tr2 := by cases h; rfl
        rw [htr, ih vs tr2 h2]
        simp [h1]

theorem buildArts_ok_trace (runs : List (Int × RunFS)) :
    ∀ (fs : List String) (acc : List (String × List (Int × PyVal)))
      (trAcc : List (Int × String)) (arts : List (String × List (Int × PyVal)))
      (tr : List (Int × String)),
      buildArts runs acc trAcc fs = (.ok arts, tr) →
      tr = trAcc ++ fs.foldr
        (fun f t => (runs.foldr (fun r t2 => (load_file_tr r.1 r.2 f).2 ++ t2) []) ++ t) [] := by
  intro fs
  induction fs with
  | nil =>
    intro acc trAcc arts tr h
    unfold buildArts at h
    cases h
    simp
  | cons f rest ih =>
    intro acc trAcc arts tr h
    unfold buildArts at h
    rcases h1 : loadAll f runs with ⟨res1, tr1⟩
    rw [h1] at h
    cases res1 with
    | error err => cases h
    | ok m =>
      have h2 := ih (dset acc (splitext f).1 m) (trAcc ++ tr1) arts tr h
      rw [h2, loadAll_ok_trace f runs m tr1 h1]
      simp [List.foldr_cons, List.append_assoc]

/-- Claim C3 counterexample: constructing the collection already performs
the artifact-file load - the construction trace contains the (run, file)
open event, refuting laziness ("not at collection construction"). -/
theorem construct_eager_load_cex :
    (construct false runsArt).2 = [(1, "foo.json")]
    ∧ (construct false runsArt).1.isOk = true := by
  constructor
  · rfl
  · rfl

/-- Claim C3 (amended): every artifact file is loaded eagerly during
construction - the construction trace is exactly the per-filename,
per-run sequence of loader events - and reading artifacts[name][eid]
afterwards is a pure lookup in the stored mapping that performs no load. -/
theorem artifact_load_at_construction (processed : Bool) (runs : List (Int × RunFS))
    (p : FileStorageParser) (h : (construct processed runs).1 = .ok p) :
    (construct processed runs).2 = traceSpec runs
    ∧ ∀ name eid, accessArtifact p name eid
        = ((dget? p.artifacts name).bind (fun m => dget? m eid), ([] : List (Int × String))) := by
  refine ⟨?_, fun name eid => rfl⟩
  unfold construct at h ⊢
  rcases h1 : buildCfgRows processed runs with e | rows
  · rw [h1] at h
    have h3 : (Except.error e : Except CErr FileStorageParser) = .ok p := h
    cases h3
  · rw [h1] at h
    rcases h2 : buildArts runs [] [] (artifactFilenames runs) with ⟨res, tr⟩
    rw [h2] at h
    cases res with
    | error e2 =>
      have h3 : (Except.error e2 : Except CErr FileStorageParser) = .ok p := h
      cases h3
    | ok arts =>
      show tr = traceSpec runs
      have h3 := buildArts_ok_trace runs (artifactFilenames runs) [] [] arts tr h2
      simpa [traceSpec] using h3

theorem artifact_load_at_construction_witness :
    (∃ p, (construct false runsArt).1 = .ok p
      ∧ ((construct false runsArt).2 = traceSpec runsArt
        ∧ ∀ name eid, accessArtifact p name eid
            = ((dget? p.artifacts name).bind (fun m => dget? m eid),
                ([] : List (Int × String))))) := by
  rcases hp : (construct false runsArt).1 with e | p
  · have hok : (construct false runsArt).1.isOk = true := rfl
    rw [hp] at hok
    cases hok
  · exact ⟨p, rfl, artifact_load_at_construction false runsArt p hp⟩

/-- Claim C7: flatten_json is idempotent - applying it twice equals
applying it once, for every finite (hence acyclic) nested mapping. -/
theorem flatten_idempotent_spec (x : PyDict) :
    flatten_json "__" (flatten_json "__" x) = flatten_json "__" x :=
  flatten_json_idem "__" x

/-- Claim C8: the flatten_json while-loop reaches a pass with no expansion
after at most maxDepth + 1 passes (each pass strictly reduces the
maximum nesting depth), so the fuelled loop returns a result and
flatten_json is that result. -/
theorem flatten_terminates_spec (x : PyDict) :
    (runFlatten "__" (vdepthEntries x + 1) x x).isSome = true
    ∧ flatten_json "__" x = (runFlatten "__" (vdepthEntries x + 1) x x).getD x :=
  ⟨runFlatten_total "__" (vdepthEntries x) x (fun e he => vdepthEntries_bound x e he), rfl⟩

/-- Claim C6 (amended): when all keys that any stage of flattening can
generate are pairwise distinct (no collisions), flatten_json returns a
mapping with no dict- or list-valued entries that is a permutation of the
original leaf paths joined with "__" (list elements keyed by index); in
particular the specification's two examples hold.  Without the
no-collision hypothesis a path can be lost (see the counterexample). -/
theorem flatten_spec_no_collision (x : PyDict) (h : (allNodeKeysD "__" x).Nodup) :
    isFlat (flatten_json "__" x) = true
    ∧ (flatten_json "__" x).Perm (leafD "__" x)
    ∧ flatten_json "__" exNestedMap = [("a__b", .atom (.int 1)), ("a__c", .atom (.int 2))]
    ∧ flatten_json "__" exNestedList = [("a__0", .atom (.int 10)), ("a__1", .atom (.int 20))] :=
  ⟨(flatten_json_flat_perm "__" x h).1, (flatten_json_flat_perm "__" x h).2, rfl, rfl⟩

theorem flatten_spec_no_collision_witness :
    (allNodeKeysD "__" exNestedMap).Nodup
    ∧ (isFlat (flatten_json "__" exNestedMap) = true
      ∧ (flatten_json "__" exNestedMap).Perm (leafD "__" exNestedMap)
      ∧ flatten_json "__" exNestedMap = [("a__b", .atom (.int 1)), ("a__c", .atom (.int 2))]
      ∧ flatten_json "__" exNestedList = [("a__0", .atom (.int 10)), ("a__1", .atom (.int 20))]) :=
  ⟨by decide, flatten_spec_no_collision exNestedMap (by decide)⟩

/-- Claim C6 counterexample: in {"a": {"b": {"c": 1}}, "a__b": 2} the
original single-key path "a__b" (value 2) does not appear in the flattened
result at all - the claimed key set is wrong when joined keys collide. -/
theorem flatten_collision_cex :
    "a__b" ∈ keysOf (leafD "__" exCollision)
    ∧ "a__b" ∉ keysOf (flatten_json "__" exCollision) := by
  constructor
  · decide
  · decide
